import Mathlib

/-!
# Verification of the silent-video-editor silence-removal pipeline

Shallow embedding of the core pipeline of the repository:

* `src/audio_utils.py` / `src/utils/audio_utils.py`: `calculate_rms`,
  `calculate_rms_db` (per-frame RMS loudness).
* `src/utils/video_utils.py`: `detect_non_silent_intervals` (classification of
  frames into silent / voiced, grouping into runs, duration filtering,
  inversion into kept intervals) and the padding / subclip-extraction part of
  `process_video`.

Modelling conventions:

* Amplitudes, times and configuration values are exact rationals (an
  idealisation of Python floats); the transcendental step `sqrt` / `log10`
  producing the dB values is modelled over the reals, and the detection core
  `detectCore` is polymorphic in the ordered type of dB values so that the
  decidable rational instance can be evaluated on concrete inputs while the
  full pipeline instantiates it with the real-valued `calculate_rms_db`.
* `numpy` arrays are lists; `np.where` on a predicate is the ascending list of
  indices satisfying it; Python's `for i in range(0, n, step)` slicing loop is
  the corresponding list of slices.
* The media decoding / encoding side of `process_video` is abstracted: subclip
  extraction is an oracle `ℚ × ℚ → Except String γ` and the observable actions
  (extraction attempts, concatenation, writing) are recorded in a step trace.
-/

/-- A sample buffer as handed to the pipeline: either a 1-D (mono) array or a
2-D array of `channels` columns (one row per sample instant), mirroring the
`audio_array.shape` case split in the Python sources. -/
inductive AudioArray : Type
  | mono (samples : List ℚ)
  | multi (channels : ℕ) (rows : List (List ℚ))

/-- `numpy`'s `.size`: total number of scalar entries. -/
def AudioArray.size : AudioArray → ℕ
  | .mono s => s.length
  | .multi c rows => rows.length * c

/-- Mono reduction exactly as written (identically) in `calculate_rms` and in
`detect_non_silent_intervals`: more than one channel is averaged per sample
(`np.mean(audio_array, axis=1)`, which divides by the channel count), a single
channel is flattened, a 1-D array is left alone. -/
def toMono : AudioArray → List ℚ
  | .mono s => s
  | .multi c rows => if 1 < c then rows.map (fun r => r.sum / (c : ℚ)) else rows.flatten

/-- Mean of the squares of a frame (`np.mean(np.square(frame))`). -/
def meanSq (l : List ℚ) : ℚ := (l.map (fun x => x * x)).sum / (l.length : ℚ)

/-- The index list `range(0, n, step)` of the Python frame loop. For a
positive step it has `⌈n / step⌉` elements `0, step, 2*step, …`. -/
def pyRange (n step : ℕ) : List ℕ := List.range' 0 ((n + step - 1) / step) step

/-- The frame slices `audio_array[i:i+frame_size]` visited by the loop in
`calculate_rms`. -/
def npSlices (fs : ℕ) (l : List ℚ) : List (List ℚ) :=
  (pyRange l.length fs).map (fun i => (l.drop i).take fs)

/-- The frames that actually contribute an RMS value in `calculate_rms`: the
empty-array early return, the slice loop, and the `if frame.size == 0:
continue` guard. -/
def rmsFrames (a : AudioArray) (fs : ℕ) : List (List ℚ) :=
  let monoArr := toMono a
  if monoArr.length = 0 then []
  else (npSlices fs monoArr).filter (fun f => !f.isEmpty)

/-- `calculate_rms` from `audio_utils.py`: per-frame `sqrt(mean(frame**2))`. -/
noncomputable def calculate_rms (a : AudioArray) (fs : ℕ) : List ℝ :=
  (rmsFrames a fs).map (fun f => Real.sqrt ((meanSq f : ℚ) : ℝ))

/-- `calculate_rms_db` from `audio_utils.py`:
`20 * log10(rms + 1e-9)` on each frame, `[]` for an empty RMS list. -/
noncomputable def calculate_rms_db (a : AudioArray) (fs : ℕ) : List ℝ :=
  let r := calculate_rms a fs
  if r.length = 0 then []
  else r.map (fun x => 20 * Real.logb 10 (x + 1 / 1000000000))

/-- `np.where(mask)[0]` for an element-wise predicate: the ascending list of
indices whose element satisfies the predicate. -/
def npWhereFrom {α : Type} (p : α → Bool) (n : ℕ) (l : List α) : List ℕ :=
  ((l.enumFrom n).filter (fun ia => p ia.2)).map Prod.fst

/-- `np.where` starting at index 0 (the form used by the source). -/
def npWhere {α : Type} (p : α → Bool) (l : List α) : List ℕ := npWhereFrom p 0 l

/-- Inner state of the index-grouping loops of `detect_non_silent_intervals`
(lines 85–98 and 148–165): `s`/`e` are `current_group_start`/
`current_group_end`; an incoming index `y ≤ e + 1` extends the group, anything
else closes it. -/
def groupGo (s e : ℕ) : List ℕ → List (ℕ × ℕ)
  | [] => [(s, e)]
  | y :: ys => if y ≤ e + 1 then groupGo s y ys else (s, e) :: groupGo y y ys

/-- Grouping of consecutive indices into `(start, end)` runs as performed on
both the non-silent and the silent index lists. -/
def groupConsecutive : List ℕ → List (ℕ × ℕ)
  | [] => []
  | x :: xs => groupGo x x xs

/-- Conversion of an index run `(start_idx, end_idx)` to a time interval
`(start_idx * frame_dur, min ((end_idx + 1) * frame_dur) total)` — the formula
used for both the non-silent intervals (lines 104–110) and the silent
intervals (lines 155–165). -/
def toTimeIntervals (fd total : ℚ) (gs : List (ℕ × ℕ)) : List (ℚ × ℚ) :=
  gs.map (fun g => ((g.1 : ℚ) * fd, min ((g.2 + 1 : ℕ) * fd) total))

/-- Body of the short-gap merging loop (lines 118–131): the accumulator is the
last interval of `merged_intervals`; a gap of at most `mg` merges, otherwise
the accumulator is emitted. -/
def mergeGo (mg : ℚ) (acc : ℚ × ℚ) : List (ℚ × ℚ) → List (ℚ × ℚ)
  | [] => [acc]
  | c :: rest =>
    if c.1 - acc.2 ≤ mg then mergeGo mg (acc.1, max acc.2 c.2) rest
    else acc :: mergeGo mg c rest

/-- The `merge_gap_sec` merging step (lines 117–132): applied only when
`merge_gap_sec > 0` and at least two intervals exist. -/
def mergeCloseIntervals (mg : ℚ) (l : List (ℚ × ℚ)) : List (ℚ × ℚ) :=
  if 0 < mg ∧ 1 < l.length then
    match l with
    | [] => []
    | x :: xs => mergeGo mg x xs
  else l

/-- The silent-run time intervals of `detect_non_silent_intervals`
(lines 146–165): group the indices with `rms_db <= threshold` and convert the
runs to clamped time intervals. -/
def silentRunIntervals {α : Type} [LinearOrder α] (db : List α) (t : α)
    (fd total : ℚ) : List (ℚ × ℚ) :=
  toTimeIntervals fd total (groupConsecutive (npWhere (fun x => decide (x ≤ t)) db))

/-- The filtered long silences (line 168): silent intervals of duration at
least `min_silence_len_sec`. -/
def longSilentIntervals {α : Type} [LinearOrder α] (db : List α) (t : α)
    (fd total ms : ℚ) : List (ℚ × ℚ) :=
  (silentRunIntervals db t fd total).filter (fun iv => decide (ms ≤ iv.2 - iv.1))

/-- The inversion loop (lines 172–182) turning long silences into kept
intervals: `cur` is `current_time`, advanced by `max cur e` past each silence,
with a trailing segment up to `total` if any time remains. -/
def invertGo (total : ℚ) : ℚ → List (ℚ × ℚ) → List (ℚ × ℚ)
  | cur, [] => if cur < total then [(cur, total)] else []
  | cur, (s, e) :: rest =>
    if cur < s then (cur, s) :: invertGo total (max cur e) rest
    else invertGo total (max cur e) rest

/-- Kept intervals as the inversion of the long silences, started at time 0. -/
def invertSilences (total : ℚ) (longs : List (ℚ × ℚ)) : List (ℚ × ℚ) :=
  invertGo total 0 longs

/-- Core of `detect_non_silent_intervals` (lines 76–200), from the dB sequence
on: the two early returns for an all-silent dB sequence, the (unused)
non-silent grouping and gap merging, and the silent-run inversion whose result
is returned. Polymorphic in the ordered type of dB values. -/
def detectCore {α : Type} [LinearOrder α] (db : List α) (t : α)
    (fd total ms mg : ℚ) : List (ℚ × ℚ) :=
  let nsi := npWhere (fun x => decide (t < x)) db
  if nsi.isEmpty then []
  else
    let intervals := toTimeIntervals fd total (groupConsecutive nsi)
    if intervals.isEmpty then []
    else
      let _merged := mergeCloseIntervals mg intervals
      invertSilences total (longSilentIntervals db t fd total ms)

/-- The detection frame-size computation (lines 46–53): `int(fps * 0.05)`
samples (`int` truncation equals `⌊·⌋` for the positive `fps` this is called
with), with the `int(fps * 0.1)` and absolute `256` fallbacks; returns the
frame size together with `detection_frame_duration_sec`, which stays `0.05`
unless a fallback was taken. -/
def detectionFrameSize (fps : ℚ) : ℕ × ℚ :=
  let f1 : ℤ := ⌊fps * (5 / 100)⌋
  if f1 ≤ 0 then
    let f2 : ℤ := ⌊fps * (1 / 10)⌋
    if f2 ≤ 0 then (256, 256 / fps)
    else (f2.toNat, (f2 : ℚ) / fps)
  else (f1.toNat, 5 / 100)

/-- `detect_non_silent_intervals` from `video_utils.py` in full: parameter
validation (invalid fps, `None`/empty buffer, coercion of non-positive
`min_silence_len_sec` to `0.1` and negative `merge_gap_sec` to `0`), frame
size selection, mono reduction, the real-valued RMS-dB computation with its
empty check, and the detection core. -/
noncomputable def detect_non_silent_intervals (audio : Option AudioArray)
    (fps t ms mg : ℚ) : List (ℚ × ℚ) :=
  if fps ≤ 0 then []
  else
    match audio with
    | none => []
    | some a =>
      if a.size = 0 then []
      else
        let ms1 := if ms ≤ 0 then 1 / 10 else ms
        let mg1 := if mg < 0 then 0 else mg
        let fsd := detectionFrameSize fps
        let monoArr := toMono a
        let db := calculate_rms_db (AudioArray.mono monoArr) fsd.1
        if db.length = 0 then []
        else detectCore db ((t : ℚ) : ℝ) fsd.2 ((monoArr.length : ℚ) / fps) ms1 mg1

/-- The padding loop body of `process_video` (lines 262–281): `le` is
`last_kept_end_time`; each interval is padded, clamped to `[0, total]` and to
the end of the previous kept interval, and discarded when it collapses. -/
def padGo (sp ep total : ℚ) : ℚ → List (ℚ × ℚ) → List (ℚ × ℚ)
  | _, [] => []
  | le, (s, e) :: rest =>
    let ps := max le (max 0 (s - sp))
    let pe := min total (e + ep)
    if ps < pe then (ps, pe) :: padGo sp ep total pe rest
    else padGo sp ep total le rest

/-- The `adjusted_intervals` list of `process_video`: the padding loop started
with `last_kept_end_time = 0.0`. -/
def applyPadding (l : List (ℚ × ℚ)) (sp ep total : ℚ) : List (ℚ × ℚ) :=
  padGo sp ep total 0 l

/-- Observable actions of the tail of `process_video`: attempting to extract a
subclip for an interval, concatenating, and writing the output file. -/
inductive PvStep : Type
  | extractStep (iv : ℚ × ℚ)
  | concatStep
  | writeStep
deriving DecidableEq

/-- Outcome of a `process_video` run: the `(success, message)` result value
together with the trace of observable media actions. -/
structure PvOutcome : Type where
  success : Bool
  message : String
  steps : List PvStep
deriving DecidableEq

/-- The subclip-extraction loop of `process_video` (lines 286–290): subclips
are extracted in order and a raising extraction aborts the whole loop (there
is no per-segment handler), recording which intervals were attempted. -/
def runExtract {γ : Type} (extract : ℚ × ℚ → Except String γ) :
    List (ℚ × ℚ) → List (ℚ × ℚ) × Except String (List γ)
  | [] => ([], Except.ok [])
  | iv :: rest =>
    match extract iv with
    | Except.error e => ([iv], Except.error e)
    | Except.ok c =>
      let tr := runExtract extract rest
      (iv :: tr.1, tr.2.map (fun cs => c :: cs))

/-- `process_video` from the detection result on (lines 253–337): the
empty-detection early failure, padding, the extraction loop whose exceptions
reach the outer handler (lines 340–343), the empty-subclips failure, and the
concatenate / write success path. -/
def process_after_detect {γ : Type} (extract : ℚ × ℚ → Except String γ)
    (kept : List (ℚ × ℚ)) (sp ep total : ℚ) : PvOutcome :=
  if kept.isEmpty then
    ⟨false, "No non-silent segments found based on the criteria. Output not generated.", []⟩
  else
    let adjusted := applyPadding kept sp ep total
    match runExtract extract adjusted with
    | (tr, Except.error e) =>
      ⟨false, "An error occurred during processing: " ++ e, tr.map PvStep.extractStep⟩
    | (tr, Except.ok clips) =>
      if clips.isEmpty then
        ⟨false, "Error: Could not extract any valid video segments after applying padding.",
          tr.map PvStep.extractStep⟩
      else
        ⟨true, "output", tr.map PvStep.extractStep ++ [PvStep.concatStep, PvStep.writeStep]⟩

/-! ## Specification-side definitions

Definitions written from the words of the specification (spec.md §4.2), to be
compared with the source-side definitions above: maximal same-class runs over
the classified frame list, and the complement walk over the long silences. -/

mutual
/-- Maximal runs of `p`-true elements: currently inside a run `[s, e]`, the
next element having index `e + 1`. -/
def pRunsGo {α : Type} (p : α → Bool) (s e : ℕ) : List α → List (ℕ × ℕ)
  | [] => [(s, e)]
  | a :: l => if p a then pRunsGo p s (e + 1) l else (s, e) :: pRunsFrom p (e + 2) l

/-- Maximal runs of `p`-true elements of a list, indices starting at `n`:
the specification's grouping of consecutive same-class frame indices. -/
def pRunsFrom {α : Type} (p : α → Bool) (n : ℕ) : List α → List (ℕ × ℕ)
  | [] => []
  | a :: l => if p a then pRunsGo p n n l else pRunsFrom p (n + 1) l
end

/-- The specification's maximal silent runs: frames with `dB ≤ threshold`,
grouped by index adjacency. -/
def specSilentRuns {α : Type} [LinearOrder α] (t : α) (db : List α) : List (ℕ × ℕ) :=
  pRunsFrom (fun x => decide (x ≤ t)) 0 db

/-- The specification's complement walk (spec.md §4.2 step 4): walk the long
silences in time order, emit the gap before each one if it has positive
length, advance the cursor to the silence's end, and emit a trailing kept
interval if the cursor ends before `total`. -/
def specWalk (total : ℚ) : ℚ → List (ℚ × ℚ) → List (ℚ × ℚ)
  | cur, [] => if cur < total then [(cur, total)] else []
  | cur, (s, e) :: rest =>
    if cur < s then (cur, s) :: specWalk total e rest else specWalk total e rest

/-- The specification's kept intervals: the complement over `[0, total]` of
the maximal silent runs of duration at least `ms`, converted to time with the
same clamped conversion the specification states. -/
def specKeptIntervals {α : Type} [LinearOrder α] (db : List α) (t : α)
    (fd total ms : ℚ) : List (ℚ × ℚ) :=
  specWalk total 0
    ((toTimeIntervals fd total (specSilentRuns t db)).filter
      (fun iv => decide (ms ≤ iv.2 - iv.1)))

/-- Sum of the durations of a list of intervals. -/
def sumDur (l : List (ℚ × ℚ)) : ℚ := (l.map (fun iv => iv.2 - iv.1)).sum

/-- The interval-list invariant of spec.md §3: every interval within bounds
and strictly positive, consecutive intervals disjoint and ordered. -/
def intervalsOK (total : ℚ) (l : List (ℚ × ℚ)) : Prop :=
  (∀ iv ∈ l, 0 ≤ iv.1 ∧ iv.1 < iv.2 ∧ iv.2 ≤ total) ∧
    l.Chain' (fun a b => a.2 ≤ b.1)

/-! ## Grouping of `np.where` indices equals maximal runs -/

theorem npWhereFrom_cons {α : Type} (p : α → Bool) (n : ℕ) (a : α) (l : List α) :
    npWhereFrom p n (a :: l) =
      if p a then n :: npWhereFrom p (n + 1) l else npWhereFrom p (n + 1) l := by
  by_cases h : p a <;> simp [npWhereFrom, List.enumFrom_cons, List.filter_cons, h]

theorem mem_npWhereFrom_ge {α : Type} (p : α → Bool) :
    ∀ (l : List α) (n : ℕ), ∀ y ∈ npWhereFrom p n l, n ≤ y := by
  intro l
  induction l with
  | nil => intro n y hy; simp [npWhereFrom] at hy
  | cons a l ih =>
    intro n y hy
    rw [npWhereFrom_cons] at hy
    by_cases h : p a
    · simp only [h, if_true, List.mem_cons] at hy
      rcases hy with rfl | hy
      · exact le_refl y
      · exact Nat.le_of_succ_le (ih (n + 1) y hy)
    · simp only [h, if_false] at hy
      exact Nat.le_of_succ_le (ih (n + 1) y hy)

theorem groupGo_far (s e : ℕ) (zs : List ℕ) (h : ∀ y ∈ zs, e + 1 < y) :
    groupGo s e zs = (s, e) :: groupConsecutive zs := by
  cases zs with
  | nil => rfl
  | cons y ys =>
    have hy : e + 1 < y := h y (List.mem_cons_self y ys)
    simp [groupGo, groupConsecutive, Nat.not_le.mpr hy]

theorem groupConsecutive_npWhere {α : Type} (p : α → Bool) :
    ∀ l : List α,
      (∀ s e : ℕ, groupGo s e (npWhereFrom p (e + 1) l) = pRunsGo p s e l) ∧
      (∀ n : ℕ, groupConsecutive (npWhereFrom p n l) = pRunsFrom p n l) := by
  intro l
  induction l with
  | nil =>
    constructor
    · intro s e; rfl
    · intro n; rfl
  | cons a l ih =>
    constructor
    · intro s e
      rw [npWhereFrom_cons]
      by_cases h : p a
      · rw [if_pos h]
        have hstep : groupGo s e ((e + 1) :: npWhereFrom p (e + 1 + 1) l) =
            groupGo s (e + 1) (npWhereFrom p (e + 1 + 1) l) := by
          simp [groupGo]
        rw [hstep, ih.1 s (e + 1), pRunsGo, if_pos h]
      · rw [if_neg h]
        have hfar : ∀ y ∈ npWhereFrom p (e + 1 + 1) l, e + 1 < y := fun y hy =>
          Nat.lt_of_succ_le (mem_npWhereFrom_ge p l (e + 1 + 1) y hy)
        rw [groupGo_far s e _ hfar, ih.2 (e + 1 + 1), pRunsGo, if_neg h]
    · intro n
      rw [npWhereFrom_cons]
      by_cases h : p a
      · rw [if_pos h]
        show groupGo n n (npWhereFrom p (n + 1) l) = pRunsFrom p n (a :: l)
        rw [ih.1 n n, pRunsFrom, if_pos h]
      · rw [if_neg h, ih.2 (n + 1), pRunsFrom, if_neg h]

theorem silentRunIntervals_eq_spec {α : Type} [LinearOrder α] (db : List α) (t : α)
    (fd total : ℚ) :
    silentRunIntervals db t fd total = toTimeIntervals fd total (specSilentRuns t db) := by
  unfold silentRunIntervals specSilentRuns npWhere
  rw [(groupConsecutive_npWhere (fun x => decide (x ≤ t)) db).2 0]

/-! ## Properties of maximal runs -/

theorem pRuns_props {α : Type} (p : α → Bool) :
    ∀ l : List α,
      (∀ s e : ℕ, s ≤ e →
        (pRunsGo p s e l).Pairwise (fun r r' => r.2 + 2 ≤ r'.1) ∧
        ∀ r ∈ pRunsGo p s e l, s ≤ r.1 ∧ r.1 ≤ r.2) ∧
      (∀ n : ℕ,
        (pRunsFrom p n l).Pairwise (fun r r' => r.2 + 2 ≤ r'.1) ∧
        ∀ r ∈ pRunsFrom p n l, n ≤ r.1 ∧ r.1 ≤ r.2) := by
  intro l
  induction l with
  | nil =>
    constructor
    · intro s e hse
      constructor
      · rw [pRunsGo]; exact List.pairwise_singleton _ _
      · intro r hr
        rw [pRunsGo, List.mem_singleton] at hr
        subst hr
        exact ⟨le_refl _, hse⟩
    · intro n
      constructor
      · rw [pRunsFrom]; exact List.Pairwise.nil
      · intro r hr; rw [pRunsFrom] at hr; simp at hr
  | cons a l ih =>
    constructor
    · intro s e hse
      rw [pRunsGo]
      by_cases h : p a
      · rw [if_pos h]
        exact ih.1 s (e + 1) (Nat.le_succ_of_le hse)
      · rw [if_neg h]
        obtain ⟨hpw, hmem⟩ := ih.2 (e + 2)
        constructor
        · exact List.Pairwise.cons (fun r hr => (hmem r hr).1) hpw
        · intro r hr
          rcases List.mem_cons.mp hr with rfl | hr
          · exact ⟨le_refl _, hse⟩
          · obtain ⟨h1, h2⟩ := hmem r hr
            exact ⟨le_trans hse (le_trans (Nat.le_add_right e 2) h1), h2⟩
    · intro n
      rw [pRunsFrom]
      by_cases h : p a
      · rw [if_pos h]
        exact ih.1 n n (le_refl n)
      · rw [if_neg h]
        obtain ⟨hpw, hmem⟩ := ih.2 (n + 1)
        exact ⟨hpw, fun r hr => ⟨Nat.le_of_succ_le (hmem r hr).1, (hmem r hr).2⟩⟩

/-! ## Properties of the long-silence interval list -/

theorem longSilentIntervals_pairwise {α : Type} [LinearOrder α] (db : List α) (t : α)
    (fd total ms : ℚ) (hfd : 0 ≤ fd) :
    (longSilentIntervals db t fd total ms).Pairwise (fun x y => x.2 ≤ y.1) := by
  unfold longSilentIntervals
  apply List.Pairwise.filter
  rw [silentRunIntervals_eq_spec]
  unfold toTimeIntervals
  apply List.Pairwise.map (R := fun r r' : ℕ × ℕ => r.2 + 2 ≤ r'.1)
  · intro r r' hrr
    have h1 : ((r.2 + 1 : ℕ) : ℚ) ≤ ((r'.1 : ℕ) : ℚ) := by
      exact_mod_cast Nat.le_of_succ_le hrr
    calc min ((r.2 + 1 : ℕ) * fd) total ≤ ((r.2 + 1 : ℕ) : ℚ) * fd := min_le_left _ _
      _ ≤ ((r'.1 : ℕ) : ℚ) * fd := mul_le_mul_of_nonneg_right h1 hfd
  · exact (pRuns_props _ db).2 0 |>.1

theorem longSilentIntervals_mem {α : Type} [LinearOrder α] (db : List α) (t : α)
    (fd total ms : ℚ) (hfd : 0 ≤ fd) :
    ∀ iv ∈ longSilentIntervals db t fd total ms,
      0 ≤ iv.1 ∧ ms ≤ iv.2 - iv.1 ∧ iv.2 ≤ total := by
  intro iv hiv
  unfold longSilentIntervals at hiv
  obtain ⟨hmem, hlong⟩ := List.mem_filter.mp hiv
  rw [silentRunIntervals_eq_spec] at hmem
  unfold toTimeIntervals at hmem
  obtain ⟨r, _, rfl⟩ := List.mem_map.mp hmem
  refine ⟨?_, ?_, min_le_right _ _⟩
  · exact mul_nonneg (Nat.cast_nonneg _) hfd
  · exact of_decide_eq_true hlong

/-! ## The inversion walk: equality with the spec walk, invariants, and sums -/

theorem invertGo_eq_specWalk (total : ℚ) :
    ∀ (ls : List (ℚ × ℚ)) (cur : ℚ),
      ls.Pairwise (fun x y => x.2 ≤ y.1) →
      (∀ iv ∈ ls, iv.1 < iv.2) →
      (∀ iv ∈ ls, cur ≤ iv.1) →
      invertGo total cur ls = specWalk total cur ls := by
  intro ls
  induction ls with
  | nil => intro cur _ _ _; rfl
  | cons hd rest ih =>
    intro cur hpw hlt hcur
    obtain ⟨s, e⟩ := hd
    have hcs : cur ≤ s := hcur (s, e) (List.mem_cons_self _ _)
    have hse : s < e := hlt (s, e) (List.mem_cons_self _ _)
    have hmax : max cur e = e := max_eq_right (le_of_lt (lt_of_le_of_lt hcs hse))
    have hrest : ∀ iv ∈ rest, e ≤ iv.1 := fun iv hiv =>
      (List.pairwise_cons.mp hpw).1 iv hiv
    have htail : invertGo total e rest = specWalk total e rest :=
      ih e (List.pairwise_cons.mp hpw).2 (fun iv hiv => hlt iv (List.mem_cons_of_mem _ hiv))
        hrest
    by_cases hc : cur < s
    · rw [invertGo, specWalk, if_pos hc, if_pos hc, hmax, htail]
    · rw [invertGo, specWalk, if_neg hc, if_neg hc, hmax, htail]

theorem invertGo_props (total : ℚ) :
    ∀ (ls : List (ℚ × ℚ)) (cur : ℚ),
      0 ≤ cur →
      ls.Pairwise (fun x y => x.2 ≤ y.1) →
      (∀ iv ∈ ls, iv.1 < iv.2 ∧ iv.2 ≤ total) →
      (∀ iv ∈ ls, cur ≤ iv.1) →
      (∀ kv ∈ invertGo total cur ls, cur ≤ kv.1 ∧ 0 ≤ kv.1 ∧ kv.1 < kv.2 ∧ kv.2 ≤ total) ∧
        (invertGo total cur ls).Chain' (fun a b => a.2 ≤ b.1) := by
  intro ls
  induction ls with
  | nil =>
    intro cur hcur _ _ _
    rw [invertGo]
    by_cases hc : cur < total
    · rw [if_pos hc]
      refine ⟨?_, List.chain'_singleton _⟩
      intro kv hkv
      rw [List.mem_singleton] at hkv
      subst hkv
      exact ⟨le_refl _, hcur, hc, le_refl _⟩
    · rw [if_neg hc]
      exact ⟨by intro kv hkv; simp at hkv, List.chain'_nil⟩
  | cons hd rest ih =>
    intro cur hcur hpw hbnd hcurle
    obtain ⟨s, e⟩ := hd
    have hcs : cur ≤ s := hcurle (s, e) (List.mem_cons_self _ _)
    have hse : s < e := (hbnd (s, e) (List.mem_cons_self _ _)).1
    have het : e ≤ total := (hbnd (s, e) (List.mem_cons_self _ _)).2
    have hmax : max cur e = e := max_eq_right (le_of_lt (lt_of_le_of_lt hcs hse))
    have he0 : (0 : ℚ) ≤ e := le_of_lt (lt_of_le_of_lt (le_trans hcur hcs) hse)
    have hrest : ∀ iv ∈ rest, e ≤ iv.1 := fun iv hiv =>
      (List.pairwise_cons.mp hpw).1 iv hiv
    obtain ⟨ihmem, ihchain⟩ := ih e he0 (List.pairwise_cons.mp hpw).2
      (fun iv hiv => hbnd iv (List.mem_cons_of_mem _ hiv)) hrest
    by_cases hc : cur < s
    · rw [invertGo, if_pos hc, hmax]
      constructor
      · intro kv hkv
        rcases List.mem_cons.mp hkv with rfl | hkv
        · exact ⟨le_refl _, hcur, hc, le_trans (le_of_lt hse) het⟩
        · obtain ⟨h1, h2, h3, h4⟩ := ihmem kv hkv
          exact ⟨le_trans hcs (le_trans (le_of_lt hse) h1), h2, h3, h4⟩
      · rw [List.chain'_cons']
        refine ⟨?_, ihchain⟩
        intro y hy
        have hmemy := ihmem y (List.mem_of_mem_head? hy)
        exact le_trans (le_of_lt hse) hmemy.1
    · rw [invertGo, if_neg hc, hmax]
      constructor
      · intro kv hkv
        obtain ⟨h1, h2, h3, h4⟩ := ihmem kv hkv
        exact ⟨le_trans hcs (le_trans (le_of_lt hse) h1), h2, h3, h4⟩
      · exact ihchain

theorem invertGo_sumDur (total : ℚ) :
    ∀ (ls : List (ℚ × ℚ)) (cur : ℚ),
      cur ≤ total →
      ls.Pairwise (fun x y => x.2 ≤ y.1) →
      (∀ iv ∈ ls, iv.1 < iv.2 ∧ iv.2 ≤ total) →
      (∀ iv ∈ ls, cur ≤ iv.1) →
      sumDur (invertGo total cur ls) = (total - cur) - sumDur ls := by
  intro ls
  induction ls with
  | nil =>
    intro cur hct _ _ _
    rw [invertGo]
    by_cases hc : cur < total
    · rw [if_pos hc]; simp [sumDur]
    · rw [if_neg hc]
      have : cur = total := le_antisymm hct (not_lt.mp hc)
      simp [sumDur, this]
  | cons hd rest ih =>
    intro cur hct hpw hbnd hcurle
    obtain ⟨s, e⟩ := hd
    have hcs : cur ≤ s := hcurle (s, e) (List.mem_cons_self _ _)
    have hse : s < e := (hbnd (s, e) (List.mem_cons_self _ _)).1
    have het : e ≤ total := (hbnd (s, e) (List.mem_cons_self _ _)).2
    have hmax : max cur e = e := max_eq_right (le_of_lt (lt_of_le_of_lt hcs hse))
    have htail : sumDur (invertGo total e rest) = (total - e) - sumDur rest :=
      ih e het (List.pairwise_cons.mp hpw).2
        (fun iv hiv => hbnd iv (List.mem_cons_of_mem _ hiv))
        (fun iv hiv => (List.pairwise_cons.mp hpw).1 iv hiv)
    by_cases hc : cur < s
    · rw [invertGo, if_pos hc, hmax]
      have hsum : sumDur ((cur, s) :: invertGo total e rest) =
          (s - cur) + sumDur (invertGo total e rest) := by
        simp [sumDur]
      rw [hsum, htail]
      have hsumtl : sumDur ((s, e) :: rest) = (e - s) + sumDur rest := by
        simp [sumDur]
      rw [hsumtl]; ring
    · rw [invertGo, if_neg hc, hmax, htail]
      have hcurs : cur = s := le_antisymm hcs (not_lt.mp hc)
      have hsumtl : sumDur ((s, e) :: rest) = (e - s) + sumDur rest := by
        simp [sumDur]
      rw [hsumtl, hcurs]; ring

/-! ## Padding-loop invariants -/

theorem padGo_props (sp ep total : ℚ) :
    ∀ (l : List (ℚ × ℚ)) (le : ℚ), 0 ≤ le →
      (∀ kv ∈ padGo sp ep total le l,
        le ≤ kv.1 ∧ 0 ≤ kv.1 ∧ kv.1 < kv.2 ∧ kv.2 ≤ total) ∧
      (padGo sp ep total le l).Chain' (fun a b => a.2 ≤ b.1) := by
  intro l
  induction l with
  | nil =>
    intro le _
    exact ⟨by intro kv hkv; simp [padGo] at hkv, by rw [padGo]; exact List.chain'_nil⟩
  | cons hd rest ih =>
    intro le hle
    obtain ⟨s, e⟩ := hd
    rw [padGo]
    by_cases hc : max le (max 0 (s - sp)) < min total (e + ep)
    · rw [if_pos hc]
      have hps0 : (0 : ℚ) ≤ max le (max 0 (s - sp)) :=
        le_trans hle (le_max_left _ _)
      have hpe0 : (0 : ℚ) ≤ min total (e + ep) := le_trans hps0 (le_of_lt hc)
      obtain ⟨ihmem, ihchain⟩ := ih (min total (e + ep)) hpe0
      constructor
      · intro kv hkv
        rcases List.mem_cons.mp hkv with rfl | hkv
        · exact ⟨le_max_left _ _, hps0, hc, min_le_left _ _⟩
        · obtain ⟨h1, h2, h3, h4⟩ := ihmem kv hkv
          exact ⟨le_trans (le_trans (le_max_left _ _) (le_of_lt hc)) h1, h2, h3, h4⟩
      · rw [List.chain'_cons']
        refine ⟨?_, ihchain⟩
        intro y hy
        exact (ihmem y (List.mem_of_mem_head? hy)).1
    · rw [if_neg hc]
      exact ih le hle

/-! ## Assembled detection-core lemmas -/

theorem npWhereFrom_ne_nil {α : Type} (p : α → Bool) :
    ∀ (l : List α) (n : ℕ) (x : α), x ∈ l → p x → npWhereFrom p n l ≠ [] := by
  intro l
  induction l with
  | nil => intro n x hx; simp at hx
  | cons a l ih =>
    intro n x hx hpx
    rw [npWhereFrom_cons]
    by_cases h : p a
    · rw [if_pos h]; exact List.cons_ne_nil _ _
    · rw [if_neg h]
      rcases List.mem_cons.mp hx with rfl | hx
      · exact absurd hpx h
      · exact ih (n + 1) x hx hpx

theorem groupGo_ne_nil : ∀ (zs : List ℕ) (s e : ℕ), groupGo s e zs ≠ [] := by
  intro zs
  induction zs with
  | nil => intro s e; rw [groupGo]; exact List.cons_ne_nil _ _
  | cons y ys ih =>
    intro s e
    rw [groupGo]
    by_cases h : y ≤ e + 1
    · rw [if_pos h]; exact ih s y
    · rw [if_neg h]; exact List.cons_ne_nil _ _

/-- When at least one frame is voiced, the detection core skips its early
returns and returns the inversion of the long silences. -/
theorem detectCore_eq_invert {α : Type} [LinearOrder α] (db : List α) (t : α)
    (fd total ms mg : ℚ) (hv : ∃ x ∈ db, t < x) :
    detectCore db t fd total ms mg =
      invertSilences total (longSilentIntervals db t fd total ms) := by
  obtain ⟨x, hx, htx⟩ := hv
  have hne : npWhere (fun x => decide (t < x)) db ≠ [] :=
    npWhereFrom_ne_nil _ db 0 x hx (decide_eq_true htx)
  unfold detectCore
  rw [if_neg (by simpa [List.isEmpty_iff] using hne)]
  obtain ⟨y, ys, hy⟩ := List.exists_cons_of_ne_nil hne
  rw [hy]
  have hgrp := groupGo_ne_nil ys y y
  have hint : toTimeIntervals fd total (groupConsecutive (y :: ys)) ≠ [] := by
    unfold groupConsecutive toTimeIntervals
    simpa using hgrp
  rw [if_neg (by simpa [List.isEmpty_iff] using hint)]

/-- Bundled facts about the long silences used by the walk lemmas, in the form
the walks consume. -/
theorem longSilentIntervals_facts {α : Type} [LinearOrder α] (db : List α) (t : α)
    (fd total ms : ℚ) (hfd : 0 ≤ fd) (hms : 0 < ms) :
    (longSilentIntervals db t fd total ms).Pairwise (fun x y => x.2 ≤ y.1) ∧
    (∀ iv ∈ longSilentIntervals db t fd total ms, iv.1 < iv.2 ∧ iv.2 ≤ total) ∧
    (∀ iv ∈ longSilentIntervals db t fd total ms, (0 : ℚ) ≤ iv.1) := by
  refine ⟨longSilentIntervals_pairwise db t fd total ms hfd, ?_, ?_⟩
  · intro iv hiv
    obtain ⟨h0, hlong, hle⟩ := longSilentIntervals_mem db t fd total ms hfd iv hiv
    exact ⟨by linarith, hle⟩
  · intro iv hiv
    exact (longSilentIntervals_mem db t fd total ms hfd iv hiv).1

theorem npWhereFrom_eq_nil {α : Type} (p : α → Bool) :
    ∀ (l : List α) (n : ℕ), (∀ x ∈ l, p x = false) → npWhereFrom p n l = [] := by
  intro l
  induction l with
  | nil => intro n _; rfl
  | cons a l ih =>
    intro n hall
    rw [npWhereFrom_cons, if_neg (by simp [hall a (List.mem_cons_self a l)]),
      ih (n + 1) (fun x hx => hall x (List.mem_cons_of_mem a hx))]

theorem detectCore_of_no_voiced {α : Type} [LinearOrder α] (db : List α) (t : α)
    (fd total ms mg : ℚ) (h : ∀ x ∈ db, ¬ t < x) :
    detectCore db t fd total ms mg = [] := by
  unfold detectCore
  rw [npWhere, npWhereFrom_eq_nil _ db 0 (fun x hx => decide_eq_false (h x hx))]
  rfl

theorem intervalsOK_nil (total : ℚ) : intervalsOK total [] :=
  ⟨by intro iv hiv; simp at hiv, List.chain'_nil⟩

theorem detectCore_eq_specKept {α : Type} [LinearOrder α] (db : List α) (t : α)
    (fd total ms mg : ℚ) (hfd : 0 ≤ fd) (hms : 0 < ms) (hv : ∃ x ∈ db, t < x) :
    detectCore db t fd total ms mg = specKeptIntervals db t fd total ms := by
  rw [detectCore_eq_invert db t fd total ms mg hv]
  unfold invertSilences specKeptIntervals
  obtain ⟨hpw, hbnd, h0⟩ := longSilentIntervals_facts db t fd total ms hfd hms
  rw [invertGo_eq_specWalk total _ 0 hpw (fun iv hiv => (hbnd iv hiv).1) h0]
  have hlongs : longSilentIntervals db t fd total ms =
      (toTimeIntervals fd total (specSilentRuns t db)).filter
        (fun iv => decide (ms ≤ iv.2 - iv.1)) := by
    unfold longSilentIntervals
    rw [silentRunIntervals_eq_spec]
  rw [hlongs]

theorem detectCore_intervalsOK {α : Type} [LinearOrder α] (db : List α) (t : α)
    (fd total ms mg : ℚ) (hfd : 0 ≤ fd) (hms : 0 < ms) :
    intervalsOK total (detectCore db t fd total ms mg) := by
  by_cases hv : ∃ x ∈ db, t < x
  · rw [detectCore_eq_invert db t fd total ms mg hv]
    unfold invertSilences
    obtain ⟨hpw, hbnd, h0⟩ := longSilentIntervals_facts db t fd total ms hfd hms
    obtain ⟨hmem, hchain⟩ :=
      invertGo_props total (longSilentIntervals db t fd total ms) 0 (le_refl 0) hpw hbnd h0
    exact ⟨fun iv hiv => (hmem iv hiv).2, hchain⟩
  · push_neg at hv
    rw [detectCore_of_no_voiced db t fd total ms mg (fun x hx => not_lt.mpr (hv x hx))]
    exact intervalsOK_nil total

theorem detectCore_sumDur {α : Type} [LinearOrder α] (db : List α) (t : α)
    (fd total ms mg : ℚ) (hfd : 0 ≤ fd) (hms : 0 < ms) (htot : 0 ≤ total)
    (hv : ∃ x ∈ db, t < x) :
    sumDur (detectCore db t fd total ms mg) +
      sumDur (longSilentIntervals db t fd total ms) = total := by
  rw [detectCore_eq_invert db t fd total ms mg hv]
  unfold invertSilences
  obtain ⟨hpw, hbnd, h0⟩ := longSilentIntervals_facts db t fd total ms hfd hms
  rw [invertGo_sumDur total _ 0 htot hpw hbnd h0]
  ring

/-! ## Wrapper-level facts -/

theorem detectionFrameSize_fd_pos (fps : ℚ) (h : 0 < fps) :
    0 < (detectionFrameSize fps).2 := by
  simp only [detectionFrameSize]
  split_ifs with h1 h2
  · exact div_pos (by norm_num) h
  · exact div_pos (by exact_mod_cast lt_of_not_le h2) h
  · norm_num

theorem ms_coerce_pos (ms : ℚ) : 0 < (if ms ≤ 0 then (1 / 10 : ℚ) else ms) := by
  split_ifs with h
  · norm_num
  · exact lt_of_not_le h

/-- The merge-gap parameter is dead from the detection core's point of view:
the merged list is bound and then never consulted. -/
theorem detectCore_mg_irrel {α : Type} [LinearOrder α] (db : List α) (t : α)
    (fd total ms mg1 mg2 : ℚ) :
    detectCore db t fd total ms mg1 = detectCore db t fd total ms mg2 := rfl

/-! ## Claim theorems -/

/-- C1 counterexample: for a 0.05 s all-silent dB sequence (a single frame at
-180 dB, as produced by an all-zero buffer) with `min_silence = 1 s`, the code
returns `[]` through its no-voiced-frame early return, while the complement of
the long silences (there are none, the 0.05 s silent run being short) over
`[0, 0.05]` is `[(0, 0.05)]`: the short silent run does disappear from the
kept intervals. -/
theorem detect_all_silent_short_counterexample :
    detectCore [(-180 : ℚ)] (-40) (5 / 100) (1 / 20) 1 (2 / 10) = [] ∧
    specKeptIntervals [(-180 : ℚ)] (-40) (5 / 100) (1 / 20) 1 = [(0, 1 / 20)] := by
  constructor
  · exact detectCore_of_no_voiced _ _ _ _ _ _
      (by intro x hx; rw [List.mem_singleton] at hx; subst hx; norm_num)
  · norm_num [specKeptIntervals, specSilentRuns, pRunsFrom, pRunsGo, toTimeIntervals,
      List.filter_cons, specWalk]

/-- C1 (amended): provided at least one frame is voiced (`threshold < dB`),
the kept-interval list returned by the detection core equals the complement
over `[0, total]` of exactly those maximal silent runs (frames with
`dB ≤ threshold`) whose duration is at least `min_silence`; in particular a
silent run shorter than `min_silence` then never produces a gap. Without a
voiced frame the code takes an early return to `[]` (see the
counterexample). -/
theorem detect_eq_complement_of_voiced {α : Type} [LinearOrder α] (db : List α)
    (t : α) (fd total ms mg : ℚ) (hfd : 0 < fd) (hms : 0 < ms)
    (hv : ∃ x ∈ db, t < x) :
    detectCore db t fd total ms mg = specKeptIntervals db t fd total ms :=
  detectCore_eq_specKept db t fd total ms mg (le_of_lt hfd) hms hv

/-- Witness for C1: a 4-frame sequence with a long middle silence. -/
theorem detect_eq_complement_witness :
    detectCore [(-10 : ℚ), -50, -50, -10] (-40) 1 4 2 0 =
      specKeptIntervals [(-10 : ℚ), -50, -50, -10] (-40) 1 4 2 :=
  detect_eq_complement_of_voiced [(-10 : ℚ), -50, -50, -10] (-40) 1 4 2 0
    (by norm_num) (by norm_num) ⟨-10, by norm_num, by norm_num⟩

/-- C2: the returned kept intervals do not depend on `merge_gap_sec`: the
short-gap merge only rewrites the intermediate non-silent interval list, which
the returned value never consults. -/
theorem merge_gap_no_effect (audio : Option AudioArray) (fps t ms g1 g2 : ℚ)
    (hg1 : 0 ≤ g1) (hg2 : 0 ≤ g2) :
    detect_non_silent_intervals audio fps t ms g1 =
      detect_non_silent_intervals audio fps t ms g2 := rfl

/-- Witness for C2 at a concrete buffer and the two gaps 0 and 0.2. -/
theorem merge_gap_no_effect_witness :
    detect_non_silent_intervals (some (AudioArray.mono [1])) 44100 (-40) 1 0 =
      detect_non_silent_intervals (some (AudioArray.mono [1])) 44100 (-40) 1 (2 / 10) :=
  merge_gap_no_effect (some (AudioArray.mono [1])) 44100 (-40) 1 0 (2 / 10)
    (by norm_num) (by norm_num)

/-- C4: the kept-interval list returned by `detect_non_silent_intervals` (over
its own audio duration `len(mono) / fps`) and any padded list built by the
padding loop of `process_video` (over the video duration it clamps to) are
sorted, mutually disjoint, and consist of intervals with
`0 ≤ start < end ≤ total`. -/
theorem kept_and_padded_intervals_invariant (a : AudioArray)
    (fps t ms mg sp ep T : ℚ) (l : List (ℚ × ℚ)) :
    intervalsOK (((toMono a).length : ℚ) / fps)
      (detect_non_silent_intervals (some a) fps t ms mg) ∧
    intervalsOK T (applyPadding l sp ep T) := by
  constructor
  · unfold detect_non_silent_intervals
    by_cases h0 : fps ≤ 0
    · rw [if_pos h0]; exact intervalsOK_nil _
    · rw [if_neg h0]
      dsimp only
      by_cases h1 : a.size = 0
      · rw [if_pos h1]; exact intervalsOK_nil _
      · rw [if_neg h1]
        by_cases h2 : (calculate_rms_db (AudioArray.mono (toMono a))
            (detectionFrameSize fps).1).length = 0
        · rw [if_pos h2]; exact intervalsOK_nil _
        · rw [if_neg h2]
          exact detectCore_intervalsOK _ _ _ _ _ _
            (le_of_lt (detectionFrameSize_fd_pos fps (lt_of_not_le h0)))
            (ms_coerce_pos ms)
  · obtain ⟨hmem, hchain⟩ := padGo_props sp ep T l 0 (le_refl 0)
    exact ⟨fun kv hkv => (hmem kv hkv).2, hchain⟩

/-- C6 counterexample: a 0.1 s all-silent dB sequence (two frames at -180 dB)
with `min_silence = 1 s`: the kept list is `[]` by the early return and the
long-silence list is empty (the silence is short), so the two duration sums
add to `0`, not to the total duration `0.1`. -/
theorem durations_sum_counterexample :
    sumDur (detectCore [(-180 : ℚ), -180] (-40) (1 / 20) (1 / 10) 1 (2 / 10)) +
      sumDur (longSilentIntervals [(-180 : ℚ), -180] (-40) (1 / 20) (1 / 10) 1) = 0 ∧
    (0 : ℚ) ≠ 1 / 10 := by
  constructor
  · rw [detectCore_of_no_voiced _ _ _ _ _ _
      (by intro x hx; rcases List.mem_cons.mp hx with rfl | hx2
          · norm_num
          · rw [List.mem_singleton] at hx2; subst hx2; norm_num)]
    norm_num [longSilentIntervals, silentRunIntervals, npWhere, npWhereFrom,
      List.enumFrom, List.filter_cons, groupConsecutive, groupGo, toTimeIntervals, sumDur]
  · norm_num

/-- C6 (amended): provided at least one frame is voiced (and the total
duration is non-negative), the sum of the kept-interval durations plus the sum
of the filtered long-silence durations equals the total duration. Without a
voiced frame the early return makes both sums 0 (see the counterexample). -/
theorem durations_sum_to_total {α : Type} [LinearOrder α] (db : List α) (t : α)
    (fd total ms mg : ℚ) (hfd : 0 < fd) (hms : 0 < ms) (htot : 0 ≤ total)
    (hv : ∃ x ∈ db, t < x) :
    sumDur (detectCore db t fd total ms mg) +
      sumDur (longSilentIntervals db t fd total ms) = total :=
  detectCore_sumDur db t fd total ms mg (le_of_lt hfd) hms htot hv

/-- Witness for C6: one long leading silence of 1 s in a 2 s timeline. -/
theorem durations_sum_witness :
    sumDur (detectCore [(-50 : ℚ), -10] (-40) 1 2 1 0) +
      sumDur (longSilentIntervals [(-50 : ℚ), -10] (-40) 1 2 1) = 2 :=
  durations_sum_to_total [(-50 : ℚ), -10] (-40) 1 2 1 0
    (by norm_num) (by norm_num) (by norm_num) ⟨-10, by norm_num, by norm_num⟩

/-- C9: an invalid fps (`fps ≤ 0`), a `None` buffer, or an empty buffer makes
`detect_non_silent_intervals` return the empty kept-interval list through its
validation early returns (no exception is possible: the embedding is total and
these branches are taken before any computation). -/
theorem invalid_input_returns_empty (audio : Option AudioArray)
    (fps t ms mg : ℚ)
    (h : fps ≤ 0 ∨ audio = none ∨ ∃ a, audio = some a ∧ a.size = 0) :
    detect_non_silent_intervals audio fps t ms mg = [] := by
  rcases h with h | h | ⟨a, rfl, ha⟩
  · unfold detect_non_silent_intervals
    rw [if_pos h]
  · subst h
    unfold detect_non_silent_intervals
    by_cases h0 : fps ≤ 0
    · rw [if_pos h0]
    · rw [if_neg h0]
  · unfold detect_non_silent_intervals
    by_cases h0 : fps ≤ 0
    · rw [if_pos h0]
    · rw [if_neg h0]
      dsimp only
      rw [if_pos ha]

/-- Witness for C9: a `None` audio buffer. -/
theorem invalid_input_returns_empty_witness :
    detect_non_silent_intervals none 1 (-40) 1 (2 / 10) = [] :=
  invalid_input_returns_empty none 1 (-40) 1 (2 / 10) (Or.inr (Or.inl rfl))

/-- C5: one-step characterization of the padding loop: each interval `(s, e)`
is padded to `(max last_end (max 0 (s - sp)), min total (e + ep))`, discarded
exactly when the computed end is at most the computed start (leaving
`last_end` unchanged), and otherwise emitted with `last_end` advanced to the
computed end; the loop starts with `last_end = 0`. -/
theorem padding_step_characterization (sp ep total le s e : ℚ)
    (rest l : List (ℚ × ℚ)) :
    padGo sp ep total le ((s, e) :: rest) =
      (if min total (e + ep) ≤ max le (max 0 (s - sp)) then
        padGo sp ep total le rest
       else
        (max le (max 0 (s - sp)), min total (e + ep)) ::
          padGo sp ep total (min total (e + ep)) rest) ∧
    applyPadding l sp ep total = padGo sp ep total 0 l := by
  constructor
  · simp only [padGo]
    by_cases h : max le (max 0 (s - sp)) < min total (e + ep)
    · rw [if_pos h, if_neg (not_le.mpr h)]
    · rw [if_neg h, if_pos (not_lt.mp h)]
  · rfl

/-- C3 divergence: on the 3-sample mono buffer `[1, 0, 1]` with
`frame_size = 2`, `calculate_rms` (and `calculate_rms_db`) emit 2 frame
values — the final 1-sample partial frame is emitted, not dropped — while
`floor(3 / 2) = 1` (the count the claim, the spec, and the code's own
`num_frames` log line state). -/
theorem rms_partial_frame_emitted :
    (calculate_rms (AudioArray.mono [1, 0, 1]) 2).length = 2 ∧
    (calculate_rms_db (AudioArray.mono [1, 0, 1]) 2).length = 2 ∧
    (3 : ℕ) / 2 = 1 := by
  have hfr : (rmsFrames (AudioArray.mono [1, 0, 1]) 2).length = 2 := rfl
  have hrms : (calculate_rms (AudioArray.mono [1, 0, 1]) 2).length = 2 := by
    rw [calculate_rms, List.length_map, hfr]
  refine ⟨hrms, ?_, rfl⟩
  simp only [calculate_rms_db]
  rw [if_neg (by rw [hrms]; norm_num), List.length_map, hrms]

/-- The extraction loop of `process_video` on a list whose prefix extracts
successfully and whose next interval raises: the loop attempts exactly the
prefix and the failing interval, then aborts with the raised error. -/
theorem runExtract_error {γ : Type} (extract : ℚ × ℚ → Except String γ)
    (m : String) :
    ∀ (pre : List (ℚ × ℚ)) (iv : ℚ × ℚ) (post : List (ℚ × ℚ)),
      (∀ j ∈ pre, ∃ c, extract j = Except.ok c) →
      extract iv = Except.error m →
      runExtract extract (pre ++ iv :: post) = (pre ++ [iv], Except.error m) := by
  intro pre
  induction pre with
  | nil =>
    intro iv post _ hiv
    rw [List.nil_append]
    simp [runExtract, hiv]
  | cons j pre ih =>
    intro iv post hpre hiv
    obtain ⟨c, hc⟩ := hpre j (List.mem_cons_self _ _)
    have htail := ih iv post (fun x hx => hpre x (List.mem_cons_of_mem _ hx)) hiv
    rw [List.cons_append]
    simp [runExtract, hc, htail, Except.map]

/-- C7 counterexample: two padded intervals `[(0,1), (2,3)]`; extraction of
the first raises while the second would extract fine, yet `process_video`
escalates to an overall failure after attempting only the first — the failing
interval is not skipped and processing does not continue. -/
theorem extraction_skip_counterexample :
    (process_after_detect
      (fun iv => if iv.1 = 0 then Except.error "decoder error" else Except.ok iv)
      [(0, 1), (2, 3)] 0 0 3).success = false ∧
    (process_after_detect
      (fun iv => if iv.1 = 0 then Except.error "decoder error" else Except.ok iv)
      [(0, 1), (2, 3)] 0 0 3).steps = [PvStep.extractStep (0, 1)] ∧
    (applyPadding [(0, 1), (2, 3)] 0 0 3).length = 2 ∧
    (fun iv : ℚ × ℚ =>
      if iv.1 = 0 then Except.error "decoder error" else Except.ok iv) (2, 3) =
      Except.ok (2, 3) := by
  have hadj : applyPadding [((0 : ℚ), (1 : ℚ)), (2, 3)] 0 0 3 = [(0, 1), (2, 3)] := by
    norm_num [applyPadding, padGo]
  have hrun : runExtract
      (fun iv : ℚ × ℚ =>
        if iv.1 = 0 then Except.error "decoder error" else Except.ok iv)
      [((0 : ℚ), (1 : ℚ)), (2, 3)] = ([(0, 1)], Except.error "decoder error") := by
    norm_num [runExtract]
  refine ⟨?_, ?_, by rw [hadj]; rfl, by norm_num⟩
  · simp only [process_after_detect, hadj, hrun]
    rfl
  · simp only [process_after_detect, hadj, hrun]
    rfl

/-- C7 (amended): if extraction of one padded interval raises (all earlier
ones succeeding), the exception propagates to the outer handler:
`process_video` returns an overall failure and attempts no further interval,
no matter how many extractable intervals remain. -/
theorem extraction_failure_aborts {γ : Type} (extract : ℚ × ℚ → Except String γ)
    (kept pre post : List (ℚ × ℚ)) (iv : ℚ × ℚ) (sp ep total : ℚ) (m : String)
    (hadj : applyPadding kept sp ep total = pre ++ iv :: post)
    (hpre : ∀ j ∈ pre, ∃ c, extract j = Except.ok c)
    (hiv : extract iv = Except.error m) :
    (process_after_detect extract kept sp ep total).success = false ∧
    (process_after_detect extract kept sp ep total).steps =
      (pre ++ [iv]).map PvStep.extractStep := by
  have hkept : ¬ kept.isEmpty = true := by
    intro hk
    rw [List.isEmpty_iff.mp hk] at hadj
    have : ([] : List (ℚ × ℚ)) = pre ++ iv :: post := hadj
    exact absurd this.symm (List.append_ne_nil_of_right_ne_nil pre (List.cons_ne_nil _ _))
  simp only [process_after_detect, hadj, if_neg hkept,
    runExtract_error extract m pre iv post hpre hiv]
  exact ⟨trivial, trivial⟩

/-- C8: when detection returns no kept intervals, or padding discards them
all, `process_video` returns a failure result (`success = false` with a
non-empty message) without attempting any extraction, concatenation, or
write. -/
theorem empty_kept_fails_without_extraction {γ : Type}
    (extract : ℚ × ℚ → Except String γ) (kept : List (ℚ × ℚ)) (sp ep total : ℚ)
    (h : kept = [] ∨ applyPadding kept sp ep total = []) :
    (process_after_detect extract kept sp ep total).success = false ∧
    (process_after_detect extract kept sp ep total).message ≠ "" ∧
    (process_after_detect extract kept sp ep total).steps = [] := by
  by_cases hk : kept.isEmpty = true
  · simp only [process_after_detect, if_pos hk]
    exact ⟨trivial, by decide, trivial⟩
  · rcases h with h | h
    · rw [h] at hk
      exact absurd rfl hk
    · simp only [process_after_detect, if_neg hk, h, runExtract, List.isEmpty_nil,
        eq_self_iff_true, if_true]
      exact ⟨trivial, by decide, rfl⟩

/-- Witness for C8: an empty kept-interval list. -/
theorem empty_kept_fails_witness :
    (process_after_detect (fun _ => Except.ok 0) ([] : List (ℚ × ℚ)) 0 0 1).success
        = false ∧
    (process_after_detect (fun _ => Except.ok 0) ([] : List (ℚ × ℚ)) 0 0 1).message
        ≠ "" ∧
    (process_after_detect (fun _ => Except.ok 0) ([] : List (ℚ × ℚ)) 0 0 1).steps
        = [] :=
  empty_kept_fails_without_extraction (fun _ => Except.ok (0 : ℕ)) [] 0 0 1 (Or.inl rfl)

/-- Witness for C7: the failing interval `(5, 6)` follows the successfully
extracted prefix `[(0, 1)]`. -/
theorem extraction_failure_aborts_witness :
    (process_after_detect
      (fun iv => if iv.1 = 5 then Except.error "boom" else Except.ok iv)
      [((0 : ℚ), (1 : ℚ)), (5, 6)] 0 0 6).success = false ∧
    (process_after_detect
      (fun iv => if iv.1 = 5 then Except.error "boom" else Except.ok iv)
      [((0 : ℚ), (1 : ℚ)), (5, 6)] 0 0 6).steps =
      ([((0 : ℚ), (1 : ℚ))] ++ [((5 : ℚ), (6 : ℚ))]).map PvStep.extractStep :=
  extraction_failure_aborts
    (fun iv => if iv.1 = 5 then Except.error "boom" else Except.ok iv)
    [((0 : ℚ), (1 : ℚ)), (5, 6)] [((0 : ℚ), (1 : ℚ))] [] ((5 : ℚ), (6 : ℚ)) 0 0 6 "boom"
    (by norm_num [applyPadding, padGo])
    (by
      intro j hj
      rw [List.mem_singleton] at hj
      subst hj
      exact ⟨((0 : ℚ), (1 : ℚ)), by norm_num⟩)
    (by norm_num)

/-! ## Frame indexing for the RMS pipeline -/

theorem lt_ceil_iff_mul_lt (fs n j : ℕ) (hfs : 0 < fs) :
    j < (n + fs - 1) / fs ↔ j * fs < n := by
  rw [Nat.lt_iff_add_one_le, Nat.le_div_iff_mul_le hfs, Nat.succ_mul]
  omega

theorem npSlices_getElem? (fs : ℕ) (l : List ℚ) (j : ℕ)
    (hj : j < (l.length + fs - 1) / fs) :
    (npSlices fs l)[j]? = some ((l.drop (fs * j)).take fs) := by
  unfold npSlices pyRange
  rw [List.getElem?_map, List.getElem?_range' 0 fs hj]
  simp

theorem npSlices_not_isEmpty (fs : ℕ) (hfs : 0 < fs) (l : List ℚ) :
    ∀ f ∈ npSlices fs l, f.isEmpty = false := by
  intro f hf
  unfold npSlices at hf
  obtain ⟨i, hi, rfl⟩ := List.mem_map.mp hf
  unfold pyRange at hi
  obtain ⟨k, hk, rfl⟩ := List.mem_range'.mp hi
  have hkn : fs * k < l.length := by
    rw [Nat.mul_comm]
    exact (lt_ceil_iff_mul_lt fs l.length k hfs).mp hk
  have hdrop : 0 < (l.drop (0 + fs * k)).length := by
    rw [List.length_drop]
    omega
  have htake : 0 < ((l.drop (0 + fs * k)).take fs).length := by
    rw [List.length_take]
    exact lt_min hfs hdrop
  rcases hempty : ((l.drop (0 + fs * k)).take fs).isEmpty with _ | _
  · rfl
  · rw [List.isEmpty_iff.mp hempty] at htake
    simp at htake

theorem rmsFrames_eq_npSlices (a : AudioArray) (fs : ℕ) (hfs : 0 < fs)
    (hne : (toMono a).length ≠ 0) :
    rmsFrames a fs = npSlices fs (toMono a) := by
  unfold rmsFrames
  rw [if_neg hne, List.filter_eq_self.mpr]
  intro f hf
  rw [npSlices_not_isEmpty fs hfs (toMono a) f hf]
  rfl

/-- C10: each loudness value emitted by `calculate_rms_db` is exactly
`20 * log10(sqrt(mean(frame²)) + 1e-9)` for its frame — the `frame_size`-wide
slice starting at `j * frame_size` of the mono-reduced buffer — and
multi-channel input is reduced to mono by the per-sample mean across channels
before framing. -/
theorem rms_db_formula (a : AudioArray) (fs j c : ℕ) (rows : List (List ℚ))
    (hfs : 0 < fs) (hj : j * fs < (toMono a).length) (hc : 1 ≤ c)
    (hrows : ∀ r ∈ rows, r.length = c) :
    (calculate_rms_db a fs)[j]? =
      some (20 * Real.logb 10
        (Real.sqrt ((meanSq (((toMono a).drop (j * fs)).take fs) : ℚ) : ℝ)
          + 1 / 1000000000)) ∧
    toMono (AudioArray.multi c rows) = rows.map (fun r => r.sum / (r.length : ℚ)) := by
  constructor
  · have hne : (toMono a).length ≠ 0 := by
      intro h
      rw [h] at hj
      exact absurd hj (Nat.not_lt_zero _)
    have hcnt : j < ((toMono a).length + fs - 1) / fs :=
      (lt_ceil_iff_mul_lt fs (toMono a).length j hfs).mpr hj
    have hfr : rmsFrames a fs = npSlices fs (toMono a) :=
      rmsFrames_eq_npSlices a fs hfs hne
    have hlen : (calculate_rms a fs).length = ((toMono a).length + fs - 1) / fs := by
      rw [calculate_rms, List.length_map, hfr]
      unfold npSlices pyRange
      rw [List.length_map, List.length_range']
    simp only [calculate_rms_db]
    rw [if_neg (by rw [hlen]; omega)]
    rw [List.getElem?_map, calculate_rms, List.getElem?_map, hfr,
      npSlices_getElem? fs (toMono a) j hcnt, Nat.mul_comm fs j]
    rfl
  · by_cases h1 : 1 < c
    · simp only [toMono, if_pos h1]
      apply List.map_congr_left
      intro r hr
      rw [hrows r hr]
    · have hc1 : c = 1 := le_antisymm (not_lt.mp h1) hc
      subst hc1
      simp only [toMono, if_neg h1]
      induction rows with
      | nil => rfl
      | cons r rows ih =>
        have hr : r.length = 1 := hrows r (List.mem_cons_self _ _)
        obtain ⟨x, rfl⟩ := List.length_eq_one.mp hr
        rw [List.flatten_cons, List.map_cons,
          ih (fun r hr2 => hrows r (List.mem_cons_of_mem _ hr2))]
        simp

/-- Witness for C10: the second (partial) frame of a 3-sample buffer at
`frame_size = 2`, and a 2-channel buffer with one sample row. -/
theorem rms_db_formula_witness :
    (calculate_rms_db (AudioArray.mono [1, 0, 1]) 2)[1]? =
      some (20 * Real.logb 10
        (Real.sqrt ((meanSq (((toMono (AudioArray.mono [1, 0, 1])).drop (1 * 2)).take 2)
            : ℚ) : ℝ) + 1 / 1000000000)) ∧
    toMono (AudioArray.multi 2 [[1, 3]]) =
      [[(1 : ℚ), 3]].map (fun r => r.sum / (r.length : ℚ)) :=
  rms_db_formula (AudioArray.mono [1, 0, 1]) 2 1 2 [[1, 3]]
    (by norm_num) (by norm_num [toMono]) (by norm_num)
    (by intro r hr; rw [List.mem_singleton] at hr; subst hr; rfl)
